import Mathlib

/-!
Verification of laa-tool.py, a utility that inspects and toggles the
Large Address Awareness (LAA) bit of a 32-bit Windows PE executable.

The file contents are modelled as a list of byte values (`List Nat`,
each entry < 256 in any real file); a seek/read pair on the unbuffered
handle becomes `readAt`, a seek/write pair becomes `writeAt`.  Python
exceptions become the `Err` sum returned through `Except`.
-/

set_option maxHeartbeats 1000000
set_option maxRecDepth 8192

namespace LaaTool

/-- The three exception classes of laa-tool.py (EChunkSize, ERange,
ENotExecutable), each carrying its message string. -/
inductive Err where
  | EChunkSize : String → Err
  | ERange : String → Err
  | ENotExecutable : String → Err
deriving DecidableEq, Repr

/-- An opened file: `name` is the display name (`os.path.basename(fdobj.name)`),
`data` the byte contents. -/
structure FileHandle where
  name : String
  data : List Nat
deriving DecidableEq, Repr

/-- `fdobj.seek(pos, os.SEEK_SET); fdobj.read(n)`: returns up to `n` bytes
starting at `pos`, fewer when the end of file intervenes. -/
def readAt (data : List Nat) (pos n : Nat) : List Nat :=
  (data.drop pos).take n

/-- `fdobj.seek(pos, os.SEEK_SET); fdobj.write(buf)`: replaces the bytes at
positions `[pos, pos + buf.length)`, zero-filling any gap should `pos` lie past
the end of file. -/
def writeAt (data : List Nat) (pos : Nat) (buf : List Nat) : List Nat :=
  data.take pos ++ List.replicate (pos - data.length) 0 ++ buf
    ++ data.drop (pos + buf.length)

/-- `int.from_bytes(bytebuffer, byteorder = 'little', signed = False)`. -/
def leVal : List Nat → Nat
  | [] => 0
  | b :: bs => b + 256 * leVal bs

/-- The Large Address Awareness bit flag (`LAA = 0x20`). -/
def LAA : Nat := 0x20

/-- `bytes2word`: little-endian value of a 2-byte buffer; EChunkSize
on any other length. -/
def bytes2word (bytebuffer : List Nat) : Except Err Nat :=
  if bytebuffer.length ≠ 2 then .error (.EChunkSize "word expected")
  else .ok (leVal bytebuffer)

/-- `word2bytes`: encode an integer in [0, 65535] as 2 little-endian bytes
(`word.to_bytes(length = 2, byteorder = 'little')`); ERange when
`word != abs(word)` (negative) or `word > 65535`. -/
def word2bytes (word : Int) : Except Err (List Nat) :=
  if word ≠ |word| then .error (.ERange "Number out of range")
  else if word > 65535 then .error (.ERange "Number out of range")
  else .ok [word.toNat % 256, word.toNat / 256]

/-- `bytes2byte`: value of a 1-byte buffer; EChunkSize on any other length. -/
def bytes2byte (bytebuffer : List Nat) : Except Err Nat :=
  if bytebuffer.length ≠ 1 then .error (.EChunkSize "byte expected")
  else .ok (leVal bytebuffer)

/-- `byte2bytes`: encode an integer in [0, 255] as 1 byte
(`bite.to_bytes(length = 1, byteorder = 'little')`); ERange when
`bite != abs(bite)` (negative) or `bite > 255`. -/
def byte2bytes (bite : Int) : Except Err (List Nat) :=
  if bite ≠ |bite| then .error (.ERange "Number out of range")
  else if bite > 255 then .error (.ERange "Number out of range")
  else .ok [bite.toNat]

/-- `MZ = 0x5a4d`, the .exe header magic. -/
def MZ : Nat := 0x5a4d

/-- `PE = 0x4550`, the PE signature low word. -/
def PE : Nat := 0x4550

/-- `position_PE_location = 0x3c`, where the PE header offset is stored. -/
def position_PE_location : Nat := 0x3c

/-- `offset_LAA_from_PE = 22`, distance from the PE signature to the LAA
flag byte. -/
def offset_LAA_from_PE : Nat := 22

/-- `getLAAPosition`: check the MZ word at offset 0, read the 2-byte PE header
offset at 0x3c, check the PE word there, and return that offset + 22.
Raises ENotExecutable with the display name on either signature mismatch. -/
def getLAAPosition (fdobj : FileHandle) : Except Err Nat :=
  match bytes2word (readAt fdobj.data 0 2) with
  | .error e => .error e
  | .ok flag =>
    if flag ≠ MZ then
      .error (.ENotExecutable (fdobj.name ++ " is not a valid executable"))
    else
      match bytes2word (readAt fdobj.data position_PE_location 2) with
      | .error e => .error e
      | .ok peoff =>
        match bytes2word (readAt fdobj.data peoff 2) with
        | .error e => .error e
        | .ok flag2 =>
          if flag2 ≠ PE then
            .error (.ENotExecutable (fdobj.name ++ " is not a valid PE file"))
          else
            .ok (peoff + offset_LAA_from_PE)

/-- `getLAAFlagByte`: the integer value of the LAA flag byte. -/
def getLAAFlagByte (fdobj : FileHandle) : Except Err Nat :=
  match getLAAPosition fdobj with
  | .error e => .error e
  | .ok laapos => bytes2byte (readAt fdobj.data laapos 1)

/-- `getLAAStatus`: whether `(flagbyte & LAA) == LAA`. -/
def getLAAStatus (fdobj : FileHandle) : Except Err Bool :=
  match getLAAFlagByte fdobj with
  | .error e => .error e
  | .ok flagbyte => .ok ((flagbyte &&& LAA) == LAA)

/-- `toggleLAAStatus`: locate the flag byte, read it, XOR it with LAA and
write the single resulting byte back in place. -/
def toggleLAAStatus (fdobj : FileHandle) : Except Err FileHandle :=
  match getLAAPosition fdobj with
  | .error e => .error e
  | .ok laapos =>
    match bytes2byte (readAt fdobj.data laapos 1) with
    | .error e => .error e
    | .ok orgbyte =>
      match byte2bytes ((orgbyte ^^^ LAA : Nat) : Int) with
      | .error e => .error e
      | .ok wrbuf =>
        .ok { fdobj with data := writeAt fdobj.data laapos wrbuf }

/-- Outcome of one CLI run: the process exit status, whether the target file
was ever opened, and the final file contents. -/
structure CliOutcome where
  exitCode : Nat
  fileOpened : Bool
  finalData : List Nat
deriving DecidableEq, Repr

/-- The `__main__` block: with both flags, report the conflict and exit 1
before the file is opened; otherwise open read-only, read the flag byte and
status, then dispatch on --set / --unset, reopening read-write only for an
actual toggle.  Printed text is omitted; exit status, whether the file was
opened and the final contents are kept. -/
def runMain (setFlag unsetFlag : Bool) (f : FileHandle) : Except Err CliOutcome :=
  if setFlag && unsetFlag then
    .ok { exitCode := 1, fileOpened := false, finalData := f.data }
  else
    match getLAAFlagByte f with
    | .error e => .error e
    | .ok _flagbyte =>
      match getLAAStatus f with
      | .error e => .error e
      | .ok laaset =>
        if setFlag then
          if laaset then
            .ok { exitCode := 1, fileOpened := true, finalData := f.data }
          else
            match toggleLAAStatus f with
            | .error e => .error e
            | .ok f2 => .ok { exitCode := 0, fileOpened := true, finalData := f2.data }
        else if unsetFlag then
          if !laaset then
            .ok { exitCode := 1, fileOpened := true, finalData := f.data }
          else
            match toggleLAAStatus f with
            | .error e => .error e
            | .ok f2 => .ok { exitCode := 0, fileOpened := true, finalData := f2.data }
        else
          .ok { exitCode := 0, fileOpened := true, finalData := f.data }

/-- Build a concrete file image: `len` bytes, byte `i` given by the first
entry for `i` in `assocs`, 0 elsewhere. -/
def mkFile (len : Nat) (assocs : List (Nat × Nat)) : List Nat :=
  (List.range len).map (fun i => ((assocs.lookup i).getD 0))

/-- A minimal synthetic PE image: MZ at 0, PE header offset 0x40 stored at
0x3c, PE signature at 0x40, flag byte (position 0x40 + 22 = 86) clear. -/
def c4file : FileHandle :=
  { name := "game.exe",
    data := mkFile 88 [(0, 0x4d), (1, 0x5a), (0x3c, 0x40), (0x40, 0x50), (0x41, 0x45)] }

/-- `c4file` after one toggle: byte 86 set to 0x20. -/
def c4fileT : FileHandle :=
  { c4file with data := c4file.data.set 86 32 }

/-- A file whose first word is not MZ. -/
def badfile : FileHandle :=
  { name := "bad.exe", data := [0, 0] }

/-- A file with a valid MZ word whose header offset points at zero bytes. -/
def c6file : FileHandle :=
  { name := "odd.exe", data := mkFile 66 [(0, 0x4d), (1, 0x5a), (0x3c, 0x40)] }

/-- A file whose 4 bytes at 0x3c hold the 32-bit value 0x10046 while the 2
bytes at 0x3c hold 0x46; the PE signature sits at 0x46. -/
def c1file : FileHandle :=
  { name := "weird.exe",
    data := mkFile 72
      [(0, 0x4d), (1, 0x5a), (0x3c, 0x46), (0x3e, 1), (0x46, 0x50), (0x47, 0x45)] }

/-- An adversarial image whose flag byte (offset 38 + 22 = 60) is the low
byte of the stored PE header offset itself, with a second PE signature at 6
so that a repeated toggle still succeeds. -/
def c2file : FileHandle :=
  { name := "dao.exe",
    data := mkFile 62
      [(0, 0x4d), (1, 0x5a), (6, 0x50), (7, 0x45), (38, 0x50), (39, 0x45), (60, 38)] }

/-- The image left behind by toggling `c2file` twice: byte 60 became 6
(38 XOR 0x20) and byte 28 (the second run's flag byte, 6 + 22) became 0x20. -/
def c2final : FileHandle :=
  { name := "dao.exe",
    data := mkFile 62
      [(0, 0x4d), (1, 0x5a), (6, 0x50), (7, 0x45), (28, 32), (38, 0x50), (39, 0x45),
       (60, 6)] }

deriving instance DecidableEq for Except

/-- A 2-byte read at `q` decodes to `w` exactly when bytes `q` and `q + 1`
exist and `w` is their little-endian value. -/
theorem bytes2word_readAt_ok {d : List Nat} {q w : Nat} :
    bytes2word (readAt d q 2) = .ok w ↔
      ∃ b0 b1, d[q]? = some b0 ∧ d[q + 1]? = some b1 ∧ w = b0 + 256 * b1 := by
  have h0 : d[q]? = (d.drop q)[0]? := by rw [List.getElem?_drop, Nat.add_zero]
  have h1 : d[q + 1]? = (d.drop q)[1]? := by rw [List.getElem?_drop]
  unfold bytes2word readAt
  rcases hd : d.drop q with _ | ⟨b0, _ | ⟨b1, t⟩⟩ <;> rw [hd] at h0 h1
  · simp [h0]
  · simp [h0, h1]
  · simp only [List.take_succ_cons, List.take_zero] at h0 h1 ⊢
    simp only [List.length_cons, List.length_nil, leVal]
    simp only [List.getElem?_cons_zero, List.getElem?_cons_succ] at h0 h1
    constructor
    · intro h
      refine ⟨b0, b1, h0, h1, ?_⟩
      simp at h
      omega
    · rintro ⟨b0x, b1x, hb0, hb1, rfl⟩
      rw [h0] at hb0
      rw [h1] at hb1
      injection hb0 with hb0
      injection hb1 with hb1
      subst hb0
      subst hb1
      simp

/-- A 1-byte read at `q` decodes to `b` exactly when byte `q` exists and is
`b`. -/
theorem bytes2byte_readAt_ok {d : List Nat} {q b : Nat} :
    bytes2byte (readAt d q 1) = .ok b ↔ d[q]? = some b := by
  have h0 : d[q]? = (d.drop q)[0]? := by rw [List.getElem?_drop, Nat.add_zero]
  unfold bytes2byte readAt
  rcases hd : d.drop q with _ | ⟨b0, t⟩ <;> rw [hd] at h0
  · simp [h0]
  · simp only [List.take_succ_cons, List.take_zero, List.getElem?_cons_zero] at h0 ⊢
    simp [h0, leVal, eq_comm]

/-- Reading one existing byte returns exactly that byte. -/
theorem readAt_one {d : List Nat} {q b : Nat} (h : d[q]? = some b) :
    readAt d q 1 = [b] := by
  have h0 : d[q]? = (d.drop q)[0]? := by rw [List.getElem?_drop, Nat.add_zero]
  rw [h] at h0
  unfold readAt
  rcases hd : d.drop q with _ | ⟨x, t⟩ <;> rw [hd] at h0
  · simp at h0
  · simp only [List.getElem?_cons_zero] at h0
    injection h0 with h0
    simp [h0]

/-- An in-bounds one-byte write is a `List.set`. -/
theorem writeAt_one {d : List Nat} {p : Nat} (b : Nat) (h : p < d.length) :
    writeAt d p [b] = d.set p b := by
  unfold writeAt
  rw [List.set_eq_take_cons_drop b h]
  have hz : p - d.length = 0 := by omega
  simp [hz]

/-- Rewriting a position with the byte it already holds is the identity. -/
theorem set_getElem_self {d : List Nat} {p b : Nat} (h : d[p]? = some b) :
    d.set p b = d := by
  induction d generalizing p with
  | nil => simp at h
  | cons a t ih =>
    cases p with
    | zero =>
      simp only [List.getElem?_cons_zero] at h
      injection h with h
      simp [h]
    | succ q =>
      simp only [List.getElem?_cons_succ] at h
      simp [ih h]

/-- A present index is in bounds. -/
theorem lt_length_of_getElem {d : List Nat} {p b : Nat} (h : d[p]? = some b) :
    p < d.length := by
  by_contra hc
  rw [List.getElem?_eq_none (by omega)] at h
  cases h

/-- Success characterization of the locator: `getLAAPosition` returns `r`
exactly when the word at 0 is MZ, the word at 0x3c is some `v`, the word at
`v` is PE, and `r = v + 22`. -/
theorem getLAAPosition_ok_iff {f : FileHandle} {r : Nat} :
    getLAAPosition f = .ok r ↔
      ∃ v, bytes2word (readAt f.data 0 2) = .ok MZ ∧
        bytes2word (readAt f.data position_PE_location 2) = .ok v ∧
        bytes2word (readAt f.data v 2) = .ok PE ∧
        r = v + offset_LAA_from_PE := by
  constructor
  · intro h
    unfold getLAAPosition at h
    rcases h1 : bytes2word (readAt f.data 0 2) with e | flag
    · simp [h1] at h
    simp only [h1] at h
    by_cases hmz : flag = MZ
    · subst hmz
      rw [if_neg (by simp)] at h
      rcases h2 : bytes2word (readAt f.data position_PE_location 2) with e | peoff
      · simp [h2] at h
      simp only [h2] at h
      rcases h3 : bytes2word (readAt f.data peoff 2) with e | flag2
      · simp [h3] at h
      simp only [h3] at h
      by_cases hpe : flag2 = PE
      · subst hpe
        rw [if_neg (by simp)] at h
        injection h with h
        exact ⟨peoff, rfl, rfl, h3, h.symm⟩
      · rw [if_pos hpe] at h
        simp at h
    · rw [if_pos hmz] at h
      simp at h
  · rintro ⟨v, hmz, hv, hpe, rfl⟩
    unfold getLAAPosition
    simp only [hmz, hv, hpe]
    rw [if_neg (by simp), if_neg (by simp)]

/-- Successful toggle, forward form: when the locator returns `p` and byte `p`
is a byte value `b`, the toggle rewrites position `p` with `b ^^^ LAA`. -/
theorem toggleLAAStatus_ok {f : FileHandle} {p b : Nat}
    (hp : getLAAPosition f = .ok p) (hb : f.data[p]? = some b) (hblt : b < 256) :
    toggleLAAStatus f = .ok { f with data := f.data.set p (b ^^^ LAA) } := by
  have hread : readAt f.data p 1 = [b] := readAt_one hb
  have hxlt : b ^^^ LAA < 256 := Nat.xor_lt_two_pow (n := 8) hblt (by decide)
  have hbyte : bytes2byte (readAt f.data p 1) = .ok b := by
    rw [hread]
    simp [bytes2byte, leVal]
  have henc : byte2bytes ((b ^^^ LAA : Nat) : Int) = .ok [b ^^^ LAA] := by
    unfold byte2bytes
    rw [if_neg (by simp [Int.abs_natCast]), if_neg (by exact_mod_cast by omega)]
    simp
  unfold toggleLAAStatus
  simp only [hp, hbyte, henc]
  rw [writeAt_one (b ^^^ LAA) (lt_length_of_getElem hb)]

/-- Successful toggle, inversion form: a successful toggle with locator result
`p` read some byte `b < 256` at `p` and rewrote it with `b ^^^ LAA`. -/
theorem toggleLAAStatus_ok_inv {f f2 : FileHandle} {p : Nat}
    (hp : getLAAPosition f = .ok p) (ht : toggleLAAStatus f = .ok f2) :
    ∃ b, f.data[p]? = some b ∧ b < 256 ∧
      f2 = { f with data := f.data.set p (b ^^^ LAA) } := by
  unfold toggleLAAStatus at ht
  simp only [hp] at ht
  rcases h1 : bytes2byte (readAt f.data p 1) with e | b
  · simp only [h1] at ht
    exact Except.noConfusion ht
  simp only [h1] at ht
  have hb : f.data[p]? = some b := bytes2byte_readAt_ok.mp h1
  unfold byte2bytes at ht
  rw [if_neg (by simp [Int.abs_natCast])] at ht
  by_cases hgt : ((b ^^^ LAA : Nat) : Int) > 255
  · rw [if_pos hgt] at ht
    simp at ht
  · rw [if_neg hgt] at ht
    simp only [Int.toNat_natCast] at ht
    have hle : b ^^^ LAA ≤ 255 := by exact_mod_cast not_lt.mp hgt
    have hblt : b < 256 := by
      have hx : (b ^^^ LAA) ^^^ LAA < 256 :=
        Nat.xor_lt_two_pow (n := 8) (by omega) (by decide)
      rwa [Nat.xor_assoc, Nat.xor_self, Nat.xor_zero] at hx
    injection ht with ht
    refine ⟨b, hb, hblt, ?_⟩
    rw [← ht, writeAt_one (b ^^^ LAA) (lt_length_of_getElem hb)]


/-- C7: codec round-trip — for every integer v in [0, 65535],
decoding the word encoding of v yields v back, and for every integer v in
[0, 255], decoding the byte encoding of v yields v back. -/
theorem C7_codec_roundtrip (v : Int) :
    (0 ≤ v → v ≤ 65535 → (word2bytes v).bind bytes2word = .ok v.toNat) ∧
    (0 ≤ v → v ≤ 255 → (byte2bytes v).bind bytes2byte = .ok v.toNat) := by
  constructor
  · intro h0 h1
    unfold word2bytes
    rw [if_neg (by simp [abs_of_nonneg h0]), if_neg (by omega)]
    show bytes2word [v.toNat % 256, v.toNat / 256] = .ok v.toNat
    unfold bytes2word
    rw [if_neg (by simp)]
    simp only [leVal, Except.ok.injEq]
    omega
  · intro h0 h1
    unfold byte2bytes
    rw [if_neg (by simp [abs_of_nonneg h0]), if_neg (by omega)]
    show bytes2byte [v.toNat] = .ok v.toNat
    unfold bytes2byte
    rw [if_neg (by simp)]
    simp [leVal]

/-- C7 witness: the round-trip evaluated at the concrete values 300 (word)
and 200 (byte). -/
theorem C7_witness :
    (word2bytes 300).bind bytes2word = .ok 300 ∧
    (byte2bytes 200).bind bytes2byte = .ok 200 :=
  ⟨(C7_codec_roundtrip 300).1 (by decide) (by decide),
   (C7_codec_roundtrip 200).2 (by decide) (by decide)⟩

/-- C8: both encoders reject every out-of-range integer with ERange, and in
particular word2bytes 65536, word2bytes (-1), byte2bytes 256 and
byte2bytes (-1) all fail with ERange. -/
theorem C8_range_rejection :
    (∀ v : Int, (v < 0 ∨ 65535 < v) →
      word2bytes v = .error (.ERange "Number out of range")) ∧
    (∀ v : Int, (v < 0 ∨ 255 < v) →
      byte2bytes v = .error (.ERange "Number out of range")) ∧
    word2bytes 65536 = .error (.ERange "Number out of range") ∧
    word2bytes (-1) = .error (.ERange "Number out of range") ∧
    byte2bytes 256 = .error (.ERange "Number out of range") ∧
    byte2bytes (-1) = .error (.ERange "Number out of range") := by
  have hw : ∀ v : Int, (v < 0 ∨ 65535 < v) →
      word2bytes v = .error (.ERange "Number out of range") := by
    intro v h
    unfold word2bytes
    rcases h with h | h
    · rw [if_pos (by rw [abs_of_neg h]; omega)]
    · rw [if_neg (by simp [abs_of_nonneg (by omega : (0:Int) ≤ v)]), if_pos h]
  have hb : ∀ v : Int, (v < 0 ∨ 255 < v) →
      byte2bytes v = .error (.ERange "Number out of range") := by
    intro v h
    unfold byte2bytes
    rcases h with h | h
    · rw [if_pos (by rw [abs_of_neg h]; omega)]
    · rw [if_neg (by simp [abs_of_nonneg (by omega : (0:Int) ≤ v)]), if_pos h]
  exact ⟨hw, hb, hw _ (by omega), hw _ (by omega), hb _ (by omega), hb _ (by omega)⟩

/-- C8 witness: the general rejection clause evaluated at the concrete
out-of-range input 100000. -/
theorem C8_witness :
    word2bytes 100000 = .error (.ERange "Number out of range") :=
  C8_range_rejection.1 100000 (Or.inr (by decide))

/-- C9: when both --set and --unset are supplied, the CLI exits with status
1 without opening the target file, leaving its contents untouched, for every
input file. -/
theorem C9_conflict_untouched (f : FileHandle) :
    runMain true true f =
      .ok { exitCode := 1, fileOpened := false, finalData := f.data } := by
  simp [runMain]

/-- C4: for every file that begins with the little-endian word 0x5A4D and
whose PE header offset (the word read at 0x3c) points at the little-endian
word 0x4550, getLAAPosition succeeds and returns that offset + 22. -/
theorem C4_locate_success (f : FileHandle) (v : Nat)
    (hmz : bytes2word (readAt f.data 0 2) = .ok MZ)
    (hv : bytes2word (readAt f.data position_PE_location 2) = .ok v)
    (hpe : bytes2word (readAt f.data v 2) = .ok PE) :
    getLAAPosition f = .ok (v + 22) :=
  getLAAPosition_ok_iff.mpr ⟨v, hmz, hv, hpe, rfl⟩

/-- C4 witness: the success path evaluated on the synthetic PE image, whose
header offset 0x40 gives flag position 86. -/
theorem C4_witness :
    bytes2word (readAt c4file.data 0 2) = .ok MZ ∧
    bytes2word (readAt c4file.data position_PE_location 2) = .ok 0x40 ∧
    bytes2word (readAt c4file.data 0x40 2) = .ok PE ∧
    getLAAPosition c4file = .ok 86 :=
  ⟨by decide, by decide, by decide,
   C4_locate_success c4file 0x40 (by decide) (by decide) (by decide)⟩

/-- C5: a file whose first two bytes decode to a word other than 0x5A4D
fails with ENotExecutable carrying the display name and the message
"is not a valid executable", and the outcome is the same for any file
agreeing on the display name and those first two bytes — no further part of
the file is consulted. -/
theorem C5_mz_rejection (f : FileHandle) (w : Nat)
    (h1 : bytes2word (readAt f.data 0 2) = .ok w) (h2 : w ≠ MZ) :
    getLAAPosition f =
      .error (.ENotExecutable (f.name ++ " is not a valid executable")) ∧
    ∀ g : FileHandle, g.name = f.name →
      bytes2word (readAt g.data 0 2) = .ok w →
      getLAAPosition g = getLAAPosition f := by
  have key : ∀ g : FileHandle, g.name = f.name →
      bytes2word (readAt g.data 0 2) = .ok w →
      getLAAPosition g =
        .error (.ENotExecutable (f.name ++ " is not a valid executable")) := by
    intro g hn hg
    unfold getLAAPosition
    simp only [hg]
    rw [if_pos h2, hn]
  refine ⟨key f rfl h1, fun g hn hg => ?_⟩
  rw [key g hn hg, key f rfl h1]

/-- C5 witness: the rejection evaluated on a two-zero-byte file, compared
with a longer file sharing the same first two bytes. -/
theorem C5_witness :
    getLAAPosition badfile =
      .error (.ENotExecutable "bad.exe is not a valid executable") ∧
    getLAAPosition { name := "bad.exe", data := [0, 0, 7] } =
      getLAAPosition badfile := by
  have h := C5_mz_rejection badfile 0 (by decide) (by decide)
  exact ⟨h.1.trans (by decide),
    h.2 { name := "bad.exe", data := [0, 0, 7] } rfl (by decide)⟩

/-- C6: a file with a valid MZ word whose PE header offset points at two
bytes decoding to a word other than 0x4550 fails with ENotExecutable
carrying the display name and the message "is not a valid PE file". -/
theorem C6_pe_rejection (f : FileHandle) (v w : Nat)
    (hmz : bytes2word (readAt f.data 0 2) = .ok MZ)
    (hv : bytes2word (readAt f.data position_PE_location 2) = .ok v)
    (hw : bytes2word (readAt f.data v 2) = .ok w) (hne : w ≠ PE) :
    getLAAPosition f =
      .error (.ENotExecutable (f.name ++ " is not a valid PE file")) := by
  unfold getLAAPosition
  simp only [hmz, hv, hw]
  rw [if_neg (by simp), if_pos hne]

/-- C6 witness: the PE rejection evaluated on a file whose header offset
0x40 points at zero bytes. -/
theorem C6_witness :
    getLAAPosition c6file =
      .error (.ENotExecutable "odd.exe is not a valid PE file") :=
  (C6_pe_rejection c6file 0x40 0 (by decide) (by decide) (by decide)
    (by decide)).trans (by decide)

/-- C1 counterexample: the four bytes at [0x3c, 0x40) of `c1file` encode the
32-bit value 65606, yet getLAAPosition succeeds with 92 = 0x46 + 22 — the
locator used only the 16-bit word 0x46, not the 32-bit value, so the result
is not 65606 + 22. -/
theorem C1_counterexample :
    leVal (readAt c1file.data 0x3c 4) = 65606 ∧
    getLAAPosition c1file = .ok 92 ∧ 92 ≠ 65606 + 22 :=
  ⟨by decide, by decide, by decide⟩

/-- C1 (amended): the PE header offset is the 16-bit little-endian word read
from the 2 bytes at [0x3c, 0x3e): whenever that word is v and getLAAPosition
succeeds with r, the PE signature check took place at v and r = v + 22. -/
theorem C1_pe_offset_16bit (f : FileHandle) (v r : Nat)
    (hv : bytes2word (readAt f.data position_PE_location 2) = .ok v)
    (hr : getLAAPosition f = .ok r) :
    bytes2word (readAt f.data v 2) = .ok PE ∧ r = v + 22 := by
  obtain ⟨u, hmz, hu, hpe, hru⟩ := getLAAPosition_ok_iff.mp hr
  rw [hv] at hu
  injection hu with hu
  subst hu
  exact ⟨hpe, hru⟩

/-- C1 (amended) witness: the 16-bit reading evaluated on the synthetic PE
image, whose stored offset word is 0x40 and whose locator result is 86. -/
theorem C1_amended_witness :
    bytes2word (readAt c4file.data 0x40 2) = .ok PE ∧ 86 = 0x40 + 22 :=
  C1_pe_offset_16bit c4file 0x40 86 (by decide) (by decide)

/-- C2 counterexample: on `c2file` both toggle calls succeed, yet the file
they leave behind is `c2final`, which differs from the original — the flag
byte offset 60 lies inside the stored PE header offset field at 0x3c, so the
first toggle changes the offset the second locate reads. -/
theorem C2_counterexample :
    (toggleLAAStatus c2file >>= toggleLAAStatus) = Except.ok c2final ∧
    c2final ≠ c2file :=
  ⟨by decide, by decide⟩

/-- C2 (amended): toggling twice restores the file exactly, provided the
flag byte position p = v + 22 does not overlap the PE header offset field at
[0x3c, 0x3e) — that is, provided the stored offset v is neither 38 nor 39 —
and the flag byte is a byte value. -/
theorem C2_toggle_involution (f : FileHandle) (v p b : Nat)
    (hv : bytes2word (readAt f.data position_PE_location 2) = .ok v)
    (hp : getLAAPosition f = .ok p)
    (hb : f.data[p]? = some b) (hblt : b < 256)
    (h38 : v ≠ 38) (h39 : v ≠ 39) :
    (toggleLAAStatus f >>= toggleLAAStatus) = Except.ok f := by
  obtain ⟨u, hmz, hu, hpe, hru⟩ := getLAAPosition_ok_iff.mp hp
  rw [hv] at hu
  injection hu with hu
  subst hu
  have hp22 : p = v + 22 := by rw [hru]; rfl
  have hplen : p < f.data.length := lt_length_of_getElem hb
  have hx256 : b ^^^ LAA < 256 := Nat.xor_lt_two_pow (n := 8) hblt (by decide)
  have ht1 : toggleLAAStatus f =
      .ok { f with data := f.data.set p (b ^^^ LAA) } :=
    toggleLAAStatus_ok hp hb hblt
  have hpres : ∀ q w : Nat, p ≠ q → p ≠ q + 1 →
      bytes2word (readAt f.data q 2) = .ok w →
      bytes2word (readAt (f.data.set p (b ^^^ LAA)) q 2) = .ok w := by
    intro q w hq0 hq1 hw
    obtain ⟨b0, b1, e0, e1, hwv⟩ := bytes2word_readAt_ok.mp hw
    refine bytes2word_readAt_ok.mpr ⟨b0, b1, ?_, ?_, hwv⟩
    · rw [List.getElem?_set_ne hq0]
      exact e0
    · rw [List.getElem?_set_ne hq1]
      exact e1
  have hvl : bytes2word (readAt f.data 60 2) = .ok v := hv
  have hp1 : getLAAPosition { f with data := f.data.set p (b ^^^ LAA) } = .ok p :=
    getLAAPosition_ok_iff.mpr
      ⟨v, hpres 0 MZ (by omega) (by omega) hmz,
       hpres 60 v (by omega) (by omega) hvl,
       hpres v PE (by omega) (by omega) hpe, hru⟩
  have hb1 : (f.data.set p (b ^^^ LAA))[p]? = some (b ^^^ LAA) :=
    List.getElem?_set_eq_of_lt (b ^^^ LAA) hplen
  have ht2 := toggleLAAStatus_ok hp1 hb1 hx256
  have hxx : (b ^^^ LAA) ^^^ LAA = b := by
    rw [Nat.xor_assoc, Nat.xor_self, Nat.xor_zero]
  have hrestore : (f.data.set p (b ^^^ LAA)).set p ((b ^^^ LAA) ^^^ LAA) = f.data := by
    rw [hxx, List.set_set, set_getElem_self hb]
  rw [ht1]
  show toggleLAAStatus { f with data := f.data.set p (b ^^^ LAA) } = Except.ok f
  rw [ht2]
  simp only [hrestore]

/-- C2 (amended) witness: the double toggle evaluated on the synthetic PE
image, whose offset word 0x40 avoids the overlap. -/
theorem C2_witness :
    (toggleLAAStatus c4file >>= toggleLAAStatus) = Except.ok c4file :=
  C2_toggle_involution c4file 64 86 0 (by decide) (by decide) (by decide)
    (by decide) (by decide) (by decide)

/-- C3: a successful toggle writes exactly b XOR 0x20 over the original flag
byte b, and masking out bit 5 on the written byte gives the same result as
on the original — the other 7 bits are preserved. -/
theorem C3_toggle_only_bit5 (f f2 : FileHandle) (p b : Nat)
    (hp : getLAAPosition f = .ok p) (hb : f.data[p]? = some b)
    (ht : toggleLAAStatus f = .ok f2) :
    f2.data[p]? = some (b ^^^ 0x20) ∧ (b ^^^ 0x20) &&& 0xdf = b &&& 0xdf := by
  obtain ⟨b2, hb2, hlt2, hf2⟩ := toggleLAAStatus_ok_inv hp ht
  rw [hb] at hb2
  injection hb2 with hb2
  subst hb2
  subst hf2
  constructor
  · show (f.data.set p (b ^^^ LAA))[p]? = some (b ^^^ 0x20)
    rw [List.getElem?_set_eq_of_lt (b ^^^ LAA) (lt_length_of_getElem hb)]
    rfl
  · have hmask : ∀ x, x < 256 → (x ^^^ 32) &&& 223 = x &&& 223 := by decide
    exact hmask b hlt2

/-- C3 witness: the single-bit change evaluated on the synthetic PE image,
whose flag byte 0 becomes 0x20. -/
theorem C3_witness :
    c4fileT.data[86]? = some (0 ^^^ 0x20) ∧
    (0 ^^^ 0x20) &&& 0xdf = 0 &&& 0xdf :=
  C3_toggle_only_bit5 c4file c4fileT 86 0 (by decide) (by decide) (by decide)

/-- C10: a successful toggle performs exactly one 1-byte write at the
position returned by getLAAPosition — the name, the length and every byte at
every other offset are unchanged. -/
theorem C10_toggle_frame (f f2 : FileHandle) (p : Nat)
    (hp : getLAAPosition f = .ok p) (ht : toggleLAAStatus f = .ok f2) :
    f2.name = f.name ∧ f2.data.length = f.data.length ∧
      ∀ i, i ≠ p → f2.data[i]? = f.data[i]? := by
  obtain ⟨b, hb, hlt, hf2⟩ := toggleLAAStatus_ok_inv hp ht
  subst hf2
  refine ⟨rfl, by simp, fun i hi => ?_⟩
  exact List.getElem?_set_ne (Ne.symm hi)

/-- C10 witness: the frame property evaluated on the synthetic PE image and
its toggled form, which differ only at position 86. -/
theorem C10_witness :
    c4fileT.name = c4file.name ∧ c4fileT.data.length = c4file.data.length ∧
      ∀ i, i ≠ 86 → c4fileT.data[i]? = c4file.data[i]? :=
  C10_toggle_frame c4file c4fileT 86 (by decide) (by decide)

end LaaTool
